import Mathlib

/-!
Verification development for the task-assignment coordination protocol of a
multi-agent Slack chatbot.

The definitions below are a shallow embedding of the Python source:

* `parseReport` embeds the confidence-report regex search performed by
  `check_and_assign` (`src/orchestrator/assignment.py`, with the
  `re.IGNORECASE` flag, and `src/main.py`, without it);
* `evaluate_request` embeds `SpecialistAgent.evaluate_request`
  (`src/agents/specialist_agent.py`);
* `collectLoop` / `check_and_assign_collect` embed the polling loop of
  `check_and_assign` (`src/orchestrator/assignment.py`), with wall-clock
  time measured in tenths of a second (the code uses 8 s timeout and
  0.2/0.3/0.5 s sleeps, so all durations are whole numbers of deciseconds);
* `resolveExtracted` / `resolveInline` embed the assignment phase of the two
  versions of `check_and_assign`;
* `facilitate_discussion` embeds
  `AgentDiscussionCoordinator.facilitate_discussion`
  (`src/agents/negotiation_module.py`), instrumented with a trace recording
  the order in which specialist evaluations are invoked;
* `collaborative_evaluate` / `evaluate_with_discussion` embed the
  corresponding methods of `SpecialistAgent` and `CollaborativeEvaluator`.

Python exceptions are modelled with `Except String`; Slack I/O is modelled by
passing the sequence of fetched thread snapshots (and rate-limit signals) as
an explicit schedule.
-/

/-! ## Character classes (Python `re` semantics, ASCII fragment)

Python's `\s`, `\w` and `\d` classes are modelled on their ASCII fragment,
which covers every string the coordination protocol produces (the one
non-ASCII character involved, the leading 🧠 emoji of a confidence report,
is matched explicitly, and is neither a word nor a space character in
Python). -/

def pyIsSpace (c : Char) : Bool :=
  c = ' ' || c = '\t' || c = '\n' || c = '\r' || c = '\x0b' || c = '\x0c'

def pyIsWord (c : Char) : Bool :=
  c.isAlphanum || c = '_'

def pyIsDigit (c : Char) : Bool :=
  c.isDigit

/-- Python `str.lower()` on the ASCII fragment. -/
def pyLower (s : List Char) : List Char :=
  s.map Char.toLower

/-- Python `str.strip()`: remove leading and trailing whitespace. -/
def pyStrip (s : List Char) : List Char :=
  ((s.dropWhile pyIsSpace).reverse.dropWhile pyIsSpace).reverse

/-- Value of a run of decimal digits, as Python's `int()`. -/
def natFromDigits (ds : List Char) : Nat :=
  ds.foldl (fun n c => n * 10 + (c.toNat - ('0').toNat)) 0

/-- Does `s` start with `lit`?  Returns the remainder on success.  When
`ci` is set, letters are compared case-insensitively (`re.IGNORECASE`). -/
def litMatch (ci : Bool) : List Char → List Char → Option (List Char)
  | [], rest => some rest
  | _ :: _, [] => none
  | l :: ls, c :: cs =>
    if (if ci then l.toLower = c.toLower else l = c) then litMatch ci ls cs
    else none

/-- Python `needle in haystack` (substring containment). -/
def containsSub (needle : List Char) : List Char → Bool
  | [] => (litMatch false needle []).isSome
  | c :: rest => (litMatch false needle (c :: rest)).isSome || containsSub needle rest

/-! ## The confidence-report wire pattern

`assignment.py` scans every thread message with
`re.search(r"(?:🧠\s*)?(\w+)\s+reporting:\s+Confidence\s+(\d+)%.*", text,
re.IGNORECASE)`; the inline version in `main.py` uses the same pattern
without the trailing `.*` (which constrains nothing) and without
`re.IGNORECASE`.  Each character class of the pattern is disjoint from the
literal that follows it, so the backtracking search is equivalent to the
deterministic leftmost scan implemented here. -/

def reportMatchAt (ci : Bool) (s : List Char) : Option (List Char × Nat) :=
  let s1 := match s with
    | c :: rest => if c = '🧠' then rest.dropWhile pyIsSpace else s
    | [] => s
  let name := s1.takeWhile pyIsWord
  if name.isEmpty then none else
  let s2 := s1.drop name.length
  let sp1 := s2.takeWhile pyIsSpace
  if sp1.isEmpty then none else
  match litMatch ci (("reporting:").toList) (s2.drop sp1.length) with
  | none => none
  | some s3 =>
    let sp2 := s3.takeWhile pyIsSpace
    if sp2.isEmpty then none else
    match litMatch ci (("Confidence").toList) (s3.drop sp2.length) with
    | none => none
    | some s4 =>
      let sp3 := s4.takeWhile pyIsSpace
      if sp3.isEmpty then none else
      let s5 := s4.drop sp3.length
      let digits := s5.takeWhile pyIsDigit
      if digits.isEmpty then none else
      match s5.drop digits.length with
      | '%' :: _ => some (name, natFromDigits digits)
      | _ => none

def reportSearch (ci : Bool) : List Char → Option (List Char × Nat)
  | [] => none
  | c :: rest =>
    match reportMatchAt ci (c :: rest) with
    | some r => some r
    | none => reportSearch ci rest

/-- `re.search` of the confidence-report pattern over a message text:
`some (specialist name, parsed confidence)` on a match. -/
def parseReport (ci : Bool) (msg : String) : Option (String × Nat) :=
  (reportSearch ci msg.toList).map (fun p => (p.1.asString, p.2))

/-! ## Task extraction: `re.search(r'Task: "(.*?)"', text, re.DOTALL)` -/

def upToQuote : List Char → Option (List Char)
  | [] => none
  | c :: rest => if c = '"' then some [] else (upToQuote rest).map (c :: ·)

def taskMatchAt (s : List Char) : Option (List Char) :=
  match litMatch false (("Task: \"").toList) s with
  | none => none
  | some rest => upToQuote rest

def taskSearch : List Char → Option (List Char)
  | [] => none
  | c :: rest =>
    match taskMatchAt (c :: rest) with
    | some r => some r
    | none => taskSearch rest

/-- First message of the thread carrying a `Task: "..."` marker, as in the
extraction loop of `check_and_assign`. -/
def taskExtract : List String → Option String
  | [] => none
  | m :: rest =>
    match taskSearch m.toList with
    | some t => some t.asString
    | none => taskExtract rest

/-! ## `SpecialistAgent.evaluate_request` -/

/-- Python `any(k in request_lower for k in keys)`. -/
def anyKeyword (keys : List String) (s : List Char) : Bool :=
  keys.any (fun k => containsSub k.toList s)

/-- Python `request_lower in strs` (equality with one of the listed strings). -/
def eqOneOf (s : List Char) (strs : List String) : Bool :=
  strs.any (fun t => s = t.toList)

/-- Match of `\b(\d+)\s*([cf])\s+to\s+([cf])\b` at the start of `s`, where
`prev` is the character preceding `s` (for the word boundary). -/
def tempMatchAt (prev : Option Char) (s : List Char) : Bool :=
  (match prev with | none => true | some p => !(pyIsWord p)) &&
  (let digits := s.takeWhile pyIsDigit
   if digits.isEmpty then false else
   let s1 := s.drop digits.length
   let s2 := s1.dropWhile pyIsSpace
   match s2 with
   | u :: s3 =>
     (u = 'c' || u = 'f') &&
     (let sp := s3.takeWhile pyIsSpace
      if sp.isEmpty then false else
      match s3.drop sp.length with
      | 't' :: 'o' :: s4 =>
        let sp2 := s4.takeWhile pyIsSpace
        if sp2.isEmpty then false else
        match s4.drop sp2.length with
        | v :: s5 =>
          (v = 'c' || v = 'f') &&
          (match s5 with
           | [] => true
           | w :: _ => !(pyIsWord w))
        | [] => false
      | _ => false)
   | [] => false)

def tempScan (prev : Option Char) : List Char → Bool
  | [] => false
  | c :: rest => tempMatchAt prev (c :: rest) || tempScan (some c) rest

/-- `re.search(r'\b(\d+)\s*([cf])\s+to\s+([cf])\b', request_lower)` as a
Boolean (only the existence of a match is used by the code). -/
def hasTempConversion (s : List Char) : Bool :=
  tempScan none s

def socraticKeys : List String :=
  ["socratic", "help me think", "guide me through", "explore with me", "let's discuss"]

/-- `SpecialistAgent.evaluate_request`: the deterministic keyword table.
Only specialists named `Writer` and `Grok` have a branch; every other name
falls through to `(False, 0)`. -/
def evaluate_request (name : String) (request_text : String) : Bool × Nat :=
  let rl := pyStrip (pyLower request_text.toList)
  if name = "Writer" then
    let confidence : Nat :=
      if anyKeyword socraticKeys rl then 98
      else if anyKeyword ["write", "story", "compose", "draft", "poem", "creative"] rl then 95
      else if anyKeyword ["tts", "text to speech", "say", "speak", "voice", "audio"] rl then 80
      else if containsSub (("dm me").toList) rl || eqOneOf rl ["hi", "hello", "hey"] then 90
      else if hasTempConversion rl then 60
      else 50
    (decide (60 ≤ confidence), min confidence 95)
  else if name = "Grok" then
    let confidence : Nat :=
      if anyKeyword socraticKeys rl then 20
      else if anyKeyword ["weather", "temperature", "forecast", "rain", "snow", "sunny",
          "cloudy", "sunrise", "sunset", "dawn", "dusk", "golden hour", "sun rise",
          "sun set", "what time is sunset", "what time is sunrise", "when does the sun"] rl then 96
      else if containsSub (("arxiv").toList) rl ||
          (containsSub (("paper").toList) rl &&
            anyKeyword ["find", "search", "get", "download", "look"] rl) ||
          anyKeyword ["academic paper", "research paper", "publication", "journal", "preprint"] rl then 94
      else if anyKeyword ["url", "link", "website", "fetch", "http://", "https://"] rl then 95
      else if anyKeyword ["research", "investigate", "deep dive", "comprehensive", "analysis"] rl &&
          !(anyKeyword ["socratic", "help me think"] rl) then 92
      else if anyKeyword ["what is", "how does", "why does", "explain", "tell me about"] rl &&
          !(anyKeyword ["socratic", "explore with me"] rl) then 88
      else if anyKeyword ["search", "find", "look up", "information about"] rl then 85
      else if hasTempConversion rl then 85
      else if containsSub (("dm me").toList) rl || eqOneOf rl ["hi", "hello", "hey"] then 70
      else if containsSub (("?").toList) rl && !(anyKeyword ["socratic", "help me think"] rl) then 80
      else 50
    (decide (60 ≤ confidence), min confidence 95)
  else
    (false, 0)

/-! ## The Evaluation Collector polling loop (`check_and_assign`, extracted
version in `src/orchestrator/assignment.py`)

Time is in deciseconds.  `timeout = 8 s = 80`; the initial
`time.sleep(0.2)` puts the clock at `2` when the loop is first entered; the
variable poll interval is 5/3/2 depending on elapsed time; a rate-limit
signal with `Retry-After: r` seconds sleeps `min r 10` seconds
(`actual_retry = min(retry_after, 10)`) and advances `start` by the same
amount (`start_time += actual_retry`).  Each fetch consumes one element of
the explicit schedule; an exhausted schedule ends the run with `.fuelOut`
(in the real system a fetch always yields something, so `.fuelOut` never
corresponds to a behaviour of the code). -/

inductive FetchResult where
  | rateLimited (retryAfter : Nat)
  | fetched (msgs : List String)
deriving DecidableEq, Repr

inductive ExitReason where
  | early | timedOut | fuelOut
deriving DecidableEq, Repr

structure CollectState where
  now : Nat
  start : Nat
  evals : List (String × Nat)
  rl : List Nat
deriving DecidableEq, Repr

structure CollectResult where
  now : Nat
  start : Nat
  evals : List (String × Nat)
  rl : List Nat
  exitR : ExitReason
deriving DecidableEq, Repr

def lookupAssoc (name : String) : List (String × α) → Option α
  | [] => none
  | (k, v) :: rest => if k = name then some v else lookupAssoc name rest

/-- One message of a fetched snapshot: record the report on first match for
a name (`if agent_name not in evaluations: evaluations[agent_name] = ...`).
The extracted collector matches with `re.IGNORECASE`. -/
def recordEval (evals : List (String × Nat)) (msg : String) : List (String × Nat) :=
  match parseReport true msg with
  | some (name, conf) =>
    if (lookupAssoc name evals).isSome then evals else evals ++ [(name, conf)]
  | none => evals

def processMsgs (msgs : List String) (evals : List (String × Nat)) : List (String × Nat) :=
  msgs.foldl recordEval evals

/-- The dynamic check interval (`0.5 s` below 2 s elapsed, `0.3 s` below
5 s, `0.2 s` after). -/
def pollSleep (elapsed : Nat) : Nat :=
  if elapsed < 20 then 5 else if elapsed < 50 then 3 else 2

def collectLoop (n : Nat) : List FetchResult → CollectState → CollectResult
  | [], st =>
    if 80 ≤ st.now - st.start then ⟨st.now, st.start, st.evals, st.rl, .timedOut⟩
    else ⟨st.now, st.start, st.evals, st.rl, .fuelOut⟩
  | f :: rest, st =>
    if 80 ≤ st.now - st.start then ⟨st.now, st.start, st.evals, st.rl, .timedOut⟩
    else
      match f with
      | .rateLimited r =>
        let a := 10 * min r 10
        collectLoop n rest ⟨st.now + a, st.start + a, st.evals, st.rl ++ [r]⟩
      | .fetched msgs =>
        let ev := processMsgs msgs st.evals
        if n ≤ ev.length then ⟨st.now, st.start, ev, st.rl, .early⟩
        else collectLoop n rest ⟨st.now + pollSleep (st.now - st.start), st.start, ev, st.rl⟩

/-- The collection phase of `check_and_assign` run against a schedule of
fetch outcomes, for a set of expected specialists.  The early-exit test of
the code is `len(evaluations) >= len(specialists)`. -/
def check_and_assign_collect (expected : List String) (sched : List FetchResult) : CollectResult :=
  collectLoop expected.length sched ⟨2, 0, [], []⟩

/-! ## The assignment phase -/

inductive Outcome where
  | assigned (name : String)
  | notConfident (detail : Option (String × Nat))
  | noResponse
deriving DecidableEq, Repr

/-- Python `max(evaluations.values())` (with 0 for the empty mapping, which
the code never reaches thanks to its `if evaluations:` guard). -/
def maxVal (evals : List (String × Nat)) : Nat :=
  evals.foldl (fun m p => max m p.2) 0

/-- Python `max(evaluations.items(), key=lambda x: x[1])`: the first item of
maximal confidence in insertion order. -/
def argmaxAssoc : List (String × Nat) → Option (String × Nat)
  | [] => none
  | p :: rest => some (rest.foldl (fun best q => if best.2 < q.2 then q else best) p)

/-- The regular assignment of `assignment.py`: argmax, gated by
`min_confidence = 30` and membership in the specialist registry; otherwise a
"No specialist confident enough ... (Highest: name with conf%)" message. -/
def fallbackExtracted (evals : List (String × Nat)) (specialists : List String) : Outcome :=
  match argmaxAssoc evals with
  | none => Outcome.noResponse
  | some (a, c) =>
    if 30 ≤ c ∧ a ∈ specialists then Outcome.assigned a
    else Outcome.notConfident (some (a, c))

/-- The assignment phase of the extracted `check_and_assign`
(`src/orchestrator/assignment.py`).  `negotiate` abstracts
`AgentDiscussionCoordinator.facilitate_discussion`; `none` stands for a
discussion that returned no agent or raised (both fall back to the regular
assignment).  The Boolean of the result records whether
`facilitate_discussion` was invoked. -/
def resolveExtracted (evals : List (String × Nat)) (specialists : List String)
    (thread : List String) (negotiate : String → Option (String × Nat)) : Outcome × Bool :=
  if evals.isEmpty then (Outcome.noResponse, false)
  else if maxVal evals < 50 then
    match taskExtract thread with
    | some task =>
      match negotiate task with
      | some (a, c) =>
        if 30 ≤ c ∧ a ∈ specialists then (Outcome.assigned a, true)
        else (fallbackExtracted evals specialists, true)
      | none => (fallbackExtracted evals specialists, true)
    | none => (fallbackExtracted evals specialists, false)
  else (fallbackExtracted evals specialists, false)

/-- The assignment phase of the inline `check_and_assign` in `src/main.py`:
no negotiation branch, and the gate is `confidence > 0` instead of
`confidence >= 30`; its decline message carries no detail. -/
def resolveInline (evals : List (String × Nat)) (specialists : List String) : Outcome :=
  if evals.isEmpty then Outcome.noResponse
  else
    match argmaxAssoc evals with
    | none => Outcome.noResponse
    | some (a, c) =>
      if 0 < c ∧ a ∈ specialists then Outcome.assigned a
      else Outcome.notConfident none

/-! ## The Negotiation Coordinator
(`AgentDiscussionCoordinator.facilitate_discussion`)

A specialist is a function from the shared discussion history to
`Except String (confidence, reasoning)`: agents with a
`collaborative_evaluate` method call it with the history, agents without
one fall back to `evaluate_request` (a history-independent function); a
Python exception raised by the call is an `Except.error`, which
`facilitate_discussion` does not catch.  The embedding additionally records
a trace of the evaluations performed, in invocation order. -/

structure HistEntry where
  agent : String
  confidence : Nat
  reasoning : String
deriving DecidableEq, Repr

abbrev AgentFun := List HistEntry → Except String (Nat × String)

structure TraceEntry where
  agent : String
  round : Nat
  confidence : Nat
deriving DecidableEq, Repr

/-- A record of `evaluations[agent_name]`: confidence, reasoning, round. -/
abbrev EvalRec := Nat × String × Nat

structure DiscussResult where
  winner : Option String
  confidence : Nat
  evals : List (String × EvalRec)
  trace : List TraceEntry
deriving DecidableEq, Repr

/-- Python dict assignment `evaluations[agent_name] = ...`: replace in
place, or append, preserving insertion order. -/
def updateAssoc (l : List (String × α)) (name : String) (v : α) : List (String × α) :=
  match l with
  | [] => [(name, v)]
  | (k, w) :: rest => if k = name then (k, v) :: rest else (k, w) :: updateAssoc rest name v

/-- `max(evaluations.items(), key=lambda x: x[1]['confidence'])`: first item
of maximal confidence. -/
def argmaxEvals : List (String × EvalRec) → Option (String × Nat)
  | [] => none
  | (n, r) :: rest =>
    some (rest.foldl (fun best q => if best.2 < q.2.1 then (q.1, q.2.1) else best) (n, r.1))

/-- One discussion round: each agent in registry order evaluates with the
current history; the result is recorded, appended to the history, and if
it reaches `target_confidence = 50` the coordinator returns at once
(`Sum.inl`); otherwise the round completes (`Sum.inr`). -/
def discussAgents :
    List (String × AgentFun) → Nat → List HistEntry → List (String × EvalRec) →
    List TraceEntry → Except String (DiscussResult ⊕ (List HistEntry × List (String × EvalRec) × List TraceEntry))
  | [], _, hist, evals, tr => .ok (.inr (hist, evals, tr))
  | (name, f) :: rest, rnd, hist, evals, tr =>
    match f hist with
    | .error e => .error e
    | .ok (conf, reasoning) =>
      let evals' := updateAssoc evals name (conf, reasoning, rnd)
      let hist' := hist ++ [⟨name, conf, reasoning⟩]
      let tr' := tr ++ [⟨name, rnd, conf⟩]
      if 50 ≤ conf then .ok (.inl ⟨some name, conf, evals', tr'⟩)
      else discussAgents rest rnd hist' evals' tr'

/-- The round loop (`for round_num in range(self.discussion_rounds)`), with
`k` rounds remaining and `rnd` the 1-based number of the next round.  After
the last round the agent with the highest recorded confidence is returned
(`None, 0` when no agent was recorded). -/
def discussRounds (agents : List (String × AgentFun)) :
    Nat → Nat → List HistEntry → List (String × EvalRec) → List TraceEntry →
    Except String DiscussResult
  | 0, _, _, evals, tr =>
    match argmaxEvals evals with
    | some (name, conf) => .ok ⟨some name, conf, evals, tr⟩
    | none => .ok ⟨none, 0, evals, tr⟩
  | k + 1, rnd, hist, evals, tr =>
    match discussAgents agents rnd hist evals tr with
    | .error e => .error e
    | .ok (.inl res) => .ok res
    | .ok (.inr (h, e, t)) => discussRounds agents k (rnd + 1) h e t

/-- `AgentDiscussionCoordinator.facilitate_discussion` with
`discussion_rounds = 3` and `target_confidence = 50`. -/
def facilitate_discussion (agents : List (String × AgentFun)) : Except String DiscussResult :=
  discussRounds agents 3 1 [] [] []

/-! ## `CollaborativeEvaluator` / `SpecialistAgent.collaborative_evaluate` -/

/-- Leftmost match of `([+-]?\d+)%?` — the first pattern tried by
`CollaborativeEvaluator._parse_confidence_adjustment`, which matches
whenever the text contains a digit, so the later `increase by`/`boost to`
patterns (which all require digits) are unreachable; no digits at all
yields 0. -/
def firstSignedInt : List Char → Int
  | [] => 0
  | c :: rest =>
    if pyIsDigit c then Int.ofNat (natFromDigits ((c :: rest).takeWhile pyIsDigit))
    else if c = '+' && (rest.takeWhile pyIsDigit).isEmpty = false then
      Int.ofNat (natFromDigits (rest.takeWhile pyIsDigit))
    else if c = '-' && (rest.takeWhile pyIsDigit).isEmpty = false then
      -(Int.ofNat (natFromDigits (rest.takeWhile pyIsDigit)))
    else firstSignedInt rest

def parse_confidence_adjustment (s : String) : Int :=
  firstSignedInt (pyLower s.toList)

/-- `CollaborativeEvaluator.evaluate_with_discussion`: the DSPy negotiator
is abstracted as a function returning `(reasoning, confidence_adjustment
text)` or raising; a raised exception is caught and converted to
`(0, "Error in collaborative evaluation")`. -/
def evaluate_with_discussion (negotiate : List HistEntry → Except String (String × String))
    (hist : List HistEntry) : Int × String :=
  match negotiate hist with
  | .ok (reasoning, adjText) => (parse_confidence_adjustment adjText, reasoning)
  | .error _ => (0, "Error in collaborative evaluation")

/-- `SpecialistAgent.collaborative_evaluate`: base evaluation from the
keyword table, then — when DSPy is in use — an adjustment obtained from
`evaluate_with_discussion`, clamped into [0, 100]. -/
def collaborative_evaluate (name task : String) (use_dspy : Bool)
    (negotiate : List HistEntry → Except String (String × String))
    (hist : List HistEntry) : Nat × String :=
  let base := (evaluate_request name task).2
  if (evaluate_request name task).1 = false then
    (base, name ++ (" cannot handle this type of request"))
  else if use_dspy then
    let adj := (evaluate_with_discussion negotiate hist).1
    let reasoning := (evaluate_with_discussion negotiate hist).2
    ((max 0 (min 100 (Int.ofNat base + adj))).toNat, reasoning)
  else
    (base, name ++ (" has ") ++ toString base ++ ("% confidence based on capabilities"))

/-! ## Lemmas about the association lists used by the collector -/

theorem lookupAssoc_isSome_iff {α : Type} (name : String) (l : List (String × α)) :
    (lookupAssoc name l).isSome = true ↔ name ∈ l.map Prod.fst := by
  induction l with
  | nil => simp [lookupAssoc]
  | cons p rest ih =>
    by_cases h : p.1 = name
    · simp [lookupAssoc, h]
    · have h2 : ¬ name = p.1 := fun hh => h hh.symm
      simp [lookupAssoc, h, h2, ih]

theorem lookupAssoc_append_single {α : Type} (name k : String) (v : α) (l : List (String × α)) :
    lookupAssoc name (l ++ [(k, v)]) =
      ((lookupAssoc name l).orElse (fun _ => if k = name then some v else none)) := by
  induction l with
  | nil => simp [lookupAssoc]
  | cons p rest ih =>
    by_cases h : p.1 = name
    · simp [lookupAssoc, h]
    · simp [lookupAssoc, h, ih]

theorem recordEval_preserves (name : String) (w : Nat) (l : List (String × Nat)) (m : String)
    (h : lookupAssoc name l = some w) :
    lookupAssoc name (recordEval l m) = some w := by
  unfold recordEval
  cases hp : parseReport true m with
  | none => exact h
  | some p =>
    obtain ⟨k, c⟩ := p
    by_cases hk : (lookupAssoc k l).isSome
    · simp [hk, h]
    · simp only [hk, Bool.false_eq_true, if_false, lookupAssoc_append_single, h, Option.orElse]

theorem processMsgs_preserves (name : String) (w : Nat) (msgs : List String)
    (l : List (String × Nat)) (h : lookupAssoc name l = some w) :
    lookupAssoc name (processMsgs msgs l) = some w := by
  induction msgs generalizing l with
  | nil => exact h
  | cons m rest ih => exact ih (recordEval l m) (recordEval_preserves name w l m h)

/-- The sequence of confidences reported for `name` by the messages of one
fetched snapshot, in message order. -/
def reportsFor (name : String) (msgs : List String) : List Nat :=
  ((msgs.filterMap (parseReport true)).filter (fun p => p.1 = name)).map Prod.snd

theorem processMsgs_first_wins (name : String) (v : Nat) (rest : List Nat) :
    ∀ (msgs : List String) (l : List (String × Nat)),
      lookupAssoc name l = none → reportsFor name msgs = v :: rest →
      lookupAssoc name (processMsgs msgs l) = some v := by
  intro msgs
  induction msgs with
  | nil => intro l _ hrep; simp [reportsFor] at hrep
  | cons m ms ih =>
    intro l hl hrep
    cases hp : parseReport true m with
    | none =>
      have hrep' : reportsFor name ms = v :: rest := by
        simpa [reportsFor, hp] using hrep
      have : recordEval l m = l := by simp [recordEval, hp]
      simpa [processMsgs, this] using ih l hl hrep'
    | some p =>
      obtain ⟨k, c⟩ := p
      by_cases hk : k = name
      · subst hk
        have hv : c = v := by
          simp [reportsFor, hp] at hrep
          exact hrep.1
        subst hv
        have hrec : recordEval l m = l ++ [(k, c)] := by
          simp [recordEval, hp, hl]
        have hlook : lookupAssoc k (recordEval l m) = some c := by
          rw [hrec, lookupAssoc_append_single, hl]
          simp [Option.orElse]
        simpa [processMsgs] using processMsgs_preserves k c ms (recordEval l m) hlook
      · have hrep' : reportsFor name ms = v :: rest := by
          simpa [reportsFor, hp, hk] using hrep
        have hl' : lookupAssoc name (recordEval l m) = none := by
          unfold recordEval
          rw [hp]
          by_cases hks : (lookupAssoc k l).isSome
          · simp [hks, hl]
          · have hkname : ¬ k = name := hk
            simp [hks, lookupAssoc_append_single, hl, Option.orElse, hkname]
        simpa [processMsgs] using ih (recordEval l m) hl' hrep'

/-- C3.  For all sequences of messages processed in one collection pass, a
specialist's entry in the result mapping is the first-encountered value for
that name, and an already-recorded entry is never overwritten by a later
match. -/
theorem C3_first_report_wins (msgs : List String) (name : String) :
    (∀ (l : List (String × Nat)) (w : Nat), lookupAssoc name l = some w →
      lookupAssoc name (processMsgs msgs l) = some w) ∧
    (∀ (v : Nat) (rest : List Nat), reportsFor name msgs = v :: rest →
      lookupAssoc name (processMsgs msgs []) = some v) :=
  ⟨fun l w h => processMsgs_preserves name w msgs l h,
   fun v rest h => processMsgs_first_wins name v rest msgs [] rfl h⟩

def c3Msgs : List String :=
  ["🧠 Grok reporting: Confidence 80% for \"t\"",
   "🧠 Grok reporting: Confidence 20% for \"t\""]

/-- C3 witness: with two Grok reports of 80 % then 20 %, the mapping holds
the first value, 80. -/
theorem C3_first_report_wins_witness :
    lookupAssoc ("Grok") (processMsgs c3Msgs []) = some 80 :=
  (C3_first_report_wins c3Msgs ("Grok")).2 80 [20] (by decide)

/-- C4.  The parse does not clamp nor validate the confidence: a message
reporting 150 % stores 150 in the mapping, so the collected values are not
bounded by 100 as the specification requires. -/
theorem C4_no_clamp_on_parse :
    lookupAssoc ("Grok") (processMsgs ["Grok reporting: Confidence 150% for \"t\""] []) =
      some 150 ∧ 100 < 150 := by
  constructor
  · rfl
  · decide

/-! ## Lemmas about the polling loop -/

theorem recordEval_keys_nodup (l : List (String × Nat)) (m : String)
    (h : (l.map Prod.fst).Nodup) : ((recordEval l m).map Prod.fst).Nodup := by
  unfold recordEval
  cases hp : parseReport true m with
  | none => exact h
  | some p =>
    obtain ⟨k, c⟩ := p
    by_cases hk : (lookupAssoc k l).isSome = true
    · simp [hk, h]
    · have hnotmem : k ∉ l.map Prod.fst := by
        intro hm
        exact hk ((lookupAssoc_isSome_iff k l).mpr hm)
      simp [hk, List.nodup_append, h, hnotmem]

theorem processMsgs_keys_nodup (msgs : List String) (l : List (String × Nat))
    (h : (l.map Prod.fst).Nodup) : ((processMsgs msgs l).map Prod.fst).Nodup := by
  induction msgs generalizing l with
  | nil => exact h
  | cons m rest ih => exact ih (recordEval l m) (recordEval_keys_nodup l m h)

theorem collectLoop_keys_nodup (n : Nat) :
    ∀ (sched : List FetchResult) (st : CollectState),
      (st.evals.map Prod.fst).Nodup →
      (((collectLoop n sched st).evals).map Prod.fst).Nodup := by
  intro sched
  induction sched with
  | nil =>
    intro st h
    unfold collectLoop
    split <;> exact h
  | cons f rest ih =>
    intro st h
    unfold collectLoop
    split
    · exact h
    · cases f with
      | rateLimited r => exact ih _ h
      | fetched msgs =>
        simp only
        split
        · exact processMsgs_keys_nodup msgs st.evals h
        · exact ih _ (processMsgs_keys_nodup msgs st.evals h)

theorem collectLoop_early_iff (n : Nat) :
    ∀ (sched : List FetchResult) (st : CollectState), st.evals.length < n →
      ((collectLoop n sched st).exitR = ExitReason.early ↔
        n ≤ (collectLoop n sched st).evals.length) := by
  intro sched
  induction sched with
  | nil =>
    intro st h
    unfold collectLoop
    split <;> simp <;> omega
  | cons f rest ih =>
    intro st h
    unfold collectLoop
    split
    · simp; omega
    · cases f with
      | rateLimited r => exact ih _ h
      | fetched msgs =>
        simp only
        split
        · rename_i hlen
          simp [hlen]
        · rename_i hlen
          exact ih _ (show (processMsgs msgs st.evals).length < n by omega)

def sumMinRl (rl : List Nat) : Nat :=
  (rl.map (fun r => min r 10)).sum

theorem collectLoop_rl_start (n : Nat) :
    ∀ (sched : List FetchResult) (st : CollectState),
      ∃ tl, (collectLoop n sched st).rl = st.rl ++ tl ∧
        (collectLoop n sched st).start = st.start + 10 * sumMinRl tl := by
  intro sched
  induction sched with
  | nil =>
    intro st
    refine ⟨[], ?_⟩
    unfold collectLoop
    split <;> simp [sumMinRl]
  | cons f rest ih =>
    intro st
    unfold collectLoop
    split
    · exact ⟨[], by simp [sumMinRl]⟩
    · cases f with
      | rateLimited r =>
        obtain ⟨tl, h1, h2⟩ := ih ⟨st.now + 10 * min r 10, st.start + 10 * min r 10,
          st.evals, st.rl ++ [r]⟩
        refine ⟨r :: tl, ?_, ?_⟩
        · rw [h1]; simp
        · rw [h2]; simp [sumMinRl]; ring
      | fetched msgs =>
        simp only
        split
        · exact ⟨[], by simp [sumMinRl]⟩
        · obtain ⟨tl, h1, h2⟩ := ih _
          exact ⟨tl, h1, h2⟩

theorem collectLoop_now_ge_start (n : Nat) :
    ∀ (sched : List FetchResult) (st : CollectState), st.start ≤ st.now →
      (collectLoop n sched st).start ≤ (collectLoop n sched st).now := by
  intro sched
  induction sched with
  | nil =>
    intro st h
    unfold collectLoop
    split <;> exact h
  | cons f rest ih =>
    intro st h
    unfold collectLoop
    split
    · exact h
    · cases f with
      | rateLimited r => exact ih _ (by simp; omega)
      | fetched msgs =>
        simp only
        split
        · exact h
        · exact ih _ (by simp; omega)

theorem collectLoop_timedOut_elapsed (n : Nat) :
    ∀ (sched : List FetchResult) (st : CollectState),
      (collectLoop n sched st).exitR = ExitReason.timedOut →
      80 ≤ (collectLoop n sched st).now - (collectLoop n sched st).start := by
  intro sched
  induction sched with
  | nil =>
    intro st h
    unfold collectLoop at h ⊢
    split at h <;> simp_all
  | cons f rest ih =>
    intro st h
    unfold collectLoop at h ⊢
    split at h
    · rename_i hc
      simp only [hc]
      split <;> simp_all
    · rename_i hc
      rw [if_neg hc]
      cases f with
      | rateLimited r => exact ih _ h
      | fetched msgs =>
        simp only at h ⊢
        split at h
        · simp_all
        · rename_i hlen
          rw [if_neg hlen]
          exact ih _ h

theorem covers_iff_length (ev : List (String × Nat)) (expected : List String)
    (hev : (ev.map Prod.fst).Nodup) (hexp : expected.Nodup)
    (hsub : ∀ p ∈ ev, p.1 ∈ expected) :
    (expected.length ≤ ev.length ↔
      ∀ name ∈ expected, (lookupAssoc name ev).isSome = true) := by
  have hlen : (ev.map Prod.fst).length = ev.length := List.length_map ev Prod.fst
  have hsub' : ∀ k ∈ ev.map Prod.fst, k ∈ expected := by
    intro k hk
    obtain ⟨p, hp, rfl⟩ := List.mem_map.mp hk
    exact hsub p hp
  have hsubF : (ev.map Prod.fst).toFinset ⊆ expected.toFinset := by
    intro x hx
    rw [List.mem_toFinset] at hx ⊢
    exact hsub' x hx
  constructor
  · intro hge name hname
    rw [lookupAssoc_isSome_iff]
    have hcard : expected.toFinset.card ≤ (ev.map Prod.fst).toFinset.card := by
      rw [List.toFinset_card_of_nodup hev, List.toFinset_card_of_nodup hexp, hlen]
      exact hge
    have heq := Finset.eq_of_subset_of_card_le hsubF hcard
    have : name ∈ expected.toFinset := List.mem_toFinset.mpr hname
    rw [← heq, List.mem_toFinset] at this
    exact this
  · intro hall
    have hsubE : expected.toFinset ⊆ (ev.map Prod.fst).toFinset := by
      intro x hx
      rw [List.mem_toFinset] at hx ⊢
      rw [← lookupAssoc_isSome_iff]
      exact hall x hx
    calc expected.length = expected.toFinset.card := (List.toFinset_card_of_nodup hexp).symm
      _ ≤ (ev.map Prod.fst).toFinset.card := Finset.card_le_card hsubE
      _ ≤ (ev.map Prod.fst).length := List.toFinset_card_le _
      _ = ev.length := hlen

/-- C1 (amended).  The polling loop exits early exactly when the number of
distinct recorded names — expected or not — reaches the number of expected
specialists (`len(evaluations) >= len(specialists)`); when every recorded
name belongs to the (duplicate-free) expected set, that count condition
coincides with every expected name having a recorded confidence. -/
theorem C1_early_exit (expected : List String) (sched : List FetchResult)
    (hne : expected ≠ []) :
    ((check_and_assign_collect expected sched).exitR = ExitReason.early ↔
      expected.length ≤ (check_and_assign_collect expected sched).evals.length) ∧
    (expected.Nodup →
      (∀ p ∈ (check_and_assign_collect expected sched).evals, p.1 ∈ expected) →
      (expected.length ≤ (check_and_assign_collect expected sched).evals.length ↔
        ∀ name ∈ expected,
          (lookupAssoc name (check_and_assign_collect expected sched).evals).isSome = true)) := by
  constructor
  · exact collectLoop_early_iff expected.length sched ⟨2, 0, [], []⟩
      (by simpa using List.length_pos.mpr hne)
  · intro hnodup hsub
    exact covers_iff_length _ expected
      (collectLoop_keys_nodup expected.length sched ⟨2, 0, [], []⟩ (by simp)) hnodup hsub

def c1wExpected : List String := ["Researcher", "Writer", "Grok"]

def c1wSched : List FetchResult :=
  [FetchResult.fetched ["🧠 Grok reporting: Confidence 95% for \"t\""]]

/-- C1 witness: a concrete run (one specialist of three reports) where both
parts of the theorem apply. -/
theorem C1_early_exit_witness :
    ((check_and_assign_collect c1wExpected c1wSched).exitR = ExitReason.early ↔
      c1wExpected.length ≤ (check_and_assign_collect c1wExpected c1wSched).evals.length) ∧
    (c1wExpected.length ≤ (check_and_assign_collect c1wExpected c1wSched).evals.length ↔
      ∀ name ∈ c1wExpected,
        (lookupAssoc name (check_and_assign_collect c1wExpected c1wSched).evals).isSome = true) :=
  ⟨(C1_early_exit c1wExpected c1wSched (by decide)).1,
   (C1_early_exit c1wExpected c1wSched (by decide)).2 (by decide) (by decide)⟩

def c1CexRun : CollectResult :=
  check_and_assign_collect ["Alice"] [FetchResult.fetched ["Bob reporting: Confidence 40% for \"t\""]]

/-- C1 counterexample.  Expecting only `Alice`, a single thread message from
the unexpected name `Bob` makes the loop exit early (count 1 ≥ 1) long
before the timeout, although no confidence has been recorded for the
expected name `Alice` — refuting "terminates early exactly when a confidence
value has been recorded for every expected specialist name". -/
theorem C1_counterexample :
    c1CexRun.exitR = ExitReason.early ∧
    lookupAssoc ("Alice") c1CexRun.evals = none ∧
    c1CexRun.now < 80 := by
  refine ⟨rfl, rfl, by decide⟩

/-- C2 (amended).  On a rate-limit signal with retry delay `r` the collector
sleeps `min r 10` seconds (the code caps the server delay at 10 s) and
extends its deadline marker by exactly that amount, so a run that gives up
by timeout has spent at least `timeout + Σ min(r_i, 10)` wall-clock
deciseconds, the sum ranging over the rate-limit signals it handled. -/
theorem C2_rate_limit_extension (expected : List String) (sched : List FetchResult) :
    (check_and_assign_collect expected sched).start =
      10 * sumMinRl (check_and_assign_collect expected sched).rl ∧
    ((check_and_assign_collect expected sched).exitR = ExitReason.timedOut →
      80 + 10 * sumMinRl (check_and_assign_collect expected sched).rl ≤
        (check_and_assign_collect expected sched).now) := by
  obtain ⟨tl, h1, h2⟩ := collectLoop_rl_start expected.length sched ⟨2, 0, [], []⟩
  have hstart : (check_and_assign_collect expected sched).start =
      10 * sumMinRl (check_and_assign_collect expected sched).rl := by
    unfold check_and_assign_collect
    rw [h1, h2]
    simp
  refine ⟨hstart, fun hto => ?_⟩
  have hge := collectLoop_now_ge_start expected.length sched ⟨2, 0, [], []⟩ (by simp)
  have helapsed := collectLoop_timedOut_elapsed expected.length sched ⟨2, 0, [], []⟩ hto
  unfold check_and_assign_collect at hstart ⊢
  omega

def c2wSched : List FetchResult := List.replicate 40 (FetchResult.fetched [])

/-- C2 witness: a run that times out with no rate-limit signals. -/
theorem C2_rate_limit_extension_witness :
    80 + 10 * sumMinRl (check_and_assign_collect ["A"] c2wSched).rl ≤
      (check_and_assign_collect ["A"] c2wSched).now :=
  (C2_rate_limit_extension ["A"] c2wSched).2 (by decide)

def c2CexSched : List FetchResult :=
  FetchResult.rateLimited 20 :: List.replicate 30 (FetchResult.fetched [])

/-- C2 counterexample.  For a server-specified retry delay of 20 s the code
sleeps and extends the deadline by only `min 20 10 = 10 s`: the run gives up
by timeout after 18.0 s of wall clock, before the
`timeout + r = 8 s + 20 s = 28 s` bound the claim asserts. -/
theorem C2_counterexample :
    (check_and_assign_collect ["A"] c2CexSched).exitR = ExitReason.timedOut ∧
    (check_and_assign_collect ["A"] c2CexSched).rl = [20] ∧
    (check_and_assign_collect ["A"] c2CexSched).now = 180 ∧
    (check_and_assign_collect ["A"] c2CexSched).start = 100 ∧
    180 < 80 + 10 * 20 := by
  refine ⟨rfl, rfl, rfl, rfl, by decide⟩

/-! ## The assignment phase: claims C5, C9, C10 -/

/-- C5.  For every non-empty mapping whose maximum confidence is below the
discussion threshold 50 (and a thread from which a task can be extracted),
the resolver invokes the Negotiation Coordinator, assigns its result when it
qualifies (agent known, confidence ≥ 30), and only otherwise falls through
to the basic argmax-plus-minimum-confidence rule. -/
theorem C5_negotiation_before_fallback (evals : List (String × Nat)) (specialists : List String)
    (thread : List String) (negotiate : String → Option (String × Nat)) (task : String)
    (hne : evals ≠ []) (hmax : maxVal evals < 50) (htask : taskExtract thread = some task) :
    (resolveExtracted evals specialists thread negotiate).2 = true ∧
    (resolveExtracted evals specialists thread negotiate).1 =
      (match negotiate task with
       | some (a, c) =>
         if 30 ≤ c ∧ a ∈ specialists then Outcome.assigned a
         else fallbackExtracted evals specialists
       | none => fallbackExtracted evals specialists) := by
  have hempty : evals.isEmpty = false := by
    cases evals with
    | nil => exact absurd rfl hne
    | cons q rest => rfl
  unfold resolveExtracted
  simp only [hempty, Bool.false_eq_true, if_false, if_pos hmax, htask]
  cases hneg : negotiate task with
  | none => exact ⟨rfl, rfl⟩
  | some p =>
    obtain ⟨a, c⟩ := p
    by_cases hq : 30 ≤ c ∧ a ∈ specialists
    · simp [hq]
    · simp [hq]

def c5Evals : List (String × Nat) := [("Grok", 10)]

def c5Thread : List String := ["Task: \"hmm\""]

/-- C5 witness: with `Grok ↦ 10` and a failed negotiation the resolver falls
through to the basic rule (declining at 10 < 30), having invoked it. -/
theorem C5_negotiation_before_fallback_witness :
    (resolveExtracted c5Evals ["Grok"] c5Thread (fun _ => none)).2 = true ∧
    (resolveExtracted c5Evals ["Grok"] c5Thread (fun _ => none)).1 =
      Outcome.notConfident (some (("Grok"), 10)) :=
  C5_negotiation_before_fallback c5Evals ["Grok"] c5Thread (fun _ => none) ("hmm")
    (by decide) (by decide) (by decide)

/-! ### C9: the "what's the weather in Boston" scenario -/

def bostonTask : String := "what's the weather in Boston"

/-- The confidence report a specialist handler posts
(`f"🧠 {name} reporting: Confidence {conf}% for \"{task}\""`). -/
def confReport (name : String) (conf : Nat) (task : String) : String :=
  "🧠 " ++ name ++ (" reporting: Confidence ") ++ toString conf ++ ("% for \"") ++ task ++ ("\"")

def c9Specialists : List String := ["Researcher", "Writer", "Grok"]

def bostonThread : List String :=
  ["Request from <@U1> | Task: \"" ++ bostonTask ++ ("\"\n\n<@U2> <@U3> <@U4> please evaluate."),
   confReport ("Researcher") ((evaluate_request ("Researcher") bostonTask).2) bostonTask,
   confReport ("Writer") ((evaluate_request ("Writer") bostonTask).2) bostonTask,
   confReport ("Grok") ((evaluate_request ("Grok") bostonTask).2) bostonTask]

/-- C9 counterexample.  The keyword table yields `(False, 0)` for a
specialist named `Researcher` (only `Writer` and `Grok` have branches) and
caps Grok at `min(96, 95) = 95`, refuting the claimed values
`{Researcher: 50, Writer: 50, Grok: 96}`. -/
theorem C9_counterexample :
    evaluate_request ("Researcher") bostonTask = (false, 0) ∧
    evaluate_request ("Grok") bostonTask = (true, 95) ∧
    ¬((evaluate_request ("Researcher") bostonTask).2 = 50 ∧
      (evaluate_request ("Writer") bostonTask).2 = 50 ∧
      (evaluate_request ("Grok") bostonTask).2 = 96) := by
  exact ⟨rfl, rfl, by decide⟩

/-- C9 (amended).  For the Boston weather task the keyword table yields
reports `Researcher ↦ 0`, `Writer ↦ 50`, `Grok ↦ 95`; the Collector gathers
all three and exits early; the resolver skips negotiation (95 ≥ 50) and
assigns Grok. -/
theorem C9_weather_scenario :
    evaluate_request ("Researcher") bostonTask = (false, 0) ∧
    evaluate_request ("Writer") bostonTask = (false, 50) ∧
    evaluate_request ("Grok") bostonTask = (true, 95) ∧
    (check_and_assign_collect c9Specialists [FetchResult.fetched bostonThread]).exitR =
      ExitReason.early ∧
    (check_and_assign_collect c9Specialists [FetchResult.fetched bostonThread]).evals =
      [("Researcher", 0), ("Writer", 50), ("Grok", 95)] ∧
    resolveExtracted [("Researcher", 0), ("Writer", 50), ("Grok", 95)] c9Specialists
      bostonThread (fun _ => none) = (Outcome.assigned ("Grok"), false) :=
  ⟨rfl, rfl, rfl, rfl, rfl, rfl⟩

/-! ### C10: inline (`main.py`) vs extracted (`assignment.py`) behaviour -/

theorem foldl_pickmax_mem (l : List (String × Nat)) :
    ∀ p : String × Nat, l.foldl (fun best q => if best.2 < q.2 then q else best) p ∈ p :: l := by
  induction l with
  | nil => intro p; simp
  | cons q rest ih =>
    intro p
    simp only [List.foldl_cons]
    have h := ih (if p.2 < q.2 then q else p)
    rcases List.mem_cons.mp h with h1 | h2
    · rw [h1]
      by_cases hc : p.2 < q.2
      · simp [hc]
      · simp [hc]
    · simp [List.mem_cons, h2]

theorem argmaxAssoc_mem (l : List (String × Nat)) (p : String × Nat)
    (h : argmaxAssoc l = some p) : p ∈ l := by
  cases l with
  | nil => simp [argmaxAssoc] at h
  | cons q rest =>
    simp only [argmaxAssoc, Option.some.injEq] at h
    have := foldl_pickmax_mem rest q
    rw [h] at this
    exact this

theorem foldl_max_ge_init (l : List (String × Nat)) :
    ∀ a : Nat, a ≤ l.foldl (fun m p => max m p.2) a := by
  induction l with
  | nil => intro a; simp
  | cons p rest ih =>
    intro a
    simp only [List.foldl_cons]
    exact le_trans (le_max_left a p.2) (ih (max a p.2))

theorem mem_le_maxVal (l : List (String × Nat)) (p : String × Nat) (h : p ∈ l) :
    p.2 ≤ maxVal l := by
  unfold maxVal
  suffices hgen : ∀ a : Nat, p.2 ≤ l.foldl (fun m q => max m q.2) a by exact hgen 0
  induction l with
  | nil => simp at h
  | cons q rest ih =>
    intro a
    simp only [List.foldl_cons]
    rcases List.mem_cons.mp h with h1 | h2
    · rw [h1]
      exact le_trans (le_max_right a q.2) (foldl_max_ge_init rest (max a q.2))
    · exact ih h2 (max a q.2)

/-- C10 (amended).  The two versions of `check_and_assign` are not
behaviourally equivalent in general (see the counterexample), but their
assignment phases agree whenever the maximal collected confidence is at
least 50 and the argmax specialist is registered: both then post the same
`ASSIGNED` message, the extracted version without invoking negotiation. -/
theorem C10_agreement (evals : List (String × Nat)) (specialists : List String)
    (thread : List String) (negotiate : String → Option (String × Nat))
    (a : String) (c : Nat)
    (hargmax : argmaxAssoc evals = some (a, c)) (hc : 50 ≤ c) (ha : a ∈ specialists) :
    resolveInline evals specialists = Outcome.assigned a ∧
    resolveExtracted evals specialists thread negotiate = (Outcome.assigned a, false) := by
  have hne : evals.isEmpty = false := by
    cases evals with
    | nil => simp [argmaxAssoc] at hargmax
    | cons q rest => rfl
  have hmem := argmaxAssoc_mem evals (a, c) hargmax
  have hmaxge : 50 ≤ maxVal evals := le_trans hc (mem_le_maxVal evals (a, c) hmem)
  have hfall : fallbackExtracted evals specialists = Outcome.assigned a := by
    unfold fallbackExtracted
    rw [hargmax]
    show (if 30 ≤ c ∧ a ∈ specialists then Outcome.assigned a
      else Outcome.notConfident (some (a, c))) = Outcome.assigned a
    rw [if_pos ⟨by omega, ha⟩]
  constructor
  · unfold resolveInline
    simp only [hne, Bool.false_eq_true, if_false, hargmax]
    rw [if_pos ⟨by omega, ha⟩]
  · unfold resolveExtracted
    simp only [hne, Bool.false_eq_true, if_false]
    rw [if_neg (by omega : ¬ maxVal evals < 50), hfall]

/-- C10 witness: a single 60 %-confident specialist is assigned identically
by both versions. -/
theorem C10_agreement_witness :
    resolveInline [("Grok", 60)] ["Grok"] = Outcome.assigned ("Grok") ∧
    resolveExtracted [("Grok", 60)] ["Grok"] [] (fun _ => none) =
      (Outcome.assigned ("Grok"), false) :=
  C10_agreement [("Grok", 60)] ["Grok"] [] (fun _ => none) ("Grok") 60 rfl
    (by decide) (by decide)

def c10CsMsg : String := "grok reporting: confidence 40% for \"t\""

/-- C10 counterexample.  On the mapping `A ↦ 10` the inline version assigns
(`confidence > 0`) while the extracted one declines (`confidence < 30`,
after a failed negotiation), and the inline report pattern (no
`re.IGNORECASE`) rejects a lower-case report that the extracted one
accepts — so the two functions are not behaviourally equivalent. -/
theorem C10_counterexample :
    resolveInline [("A", 10)] ["A"] = Outcome.assigned ("A") ∧
    (resolveExtracted [("A", 10)] ["A"] ["Task: \"t\""] (fun _ => none)).1 =
      Outcome.notConfident (some (("A"), 10)) ∧
    Outcome.assigned ("A") ≠ Outcome.notConfident (some (("A"), 10)) ∧
    parseReport true c10CsMsg = some (("grok"), 40) ∧
    parseReport false c10CsMsg = none := by
  exact ⟨rfl, rfl, by decide, rfl, rfl⟩

/-! ## Lemmas about the Negotiation Coordinator -/

theorem get_concat_length {α : Type} (t : List α) (x : α) (h : t.length < (t ++ [x]).length) :
    (t ++ [x]).get ⟨t.length, h⟩ = x := by
  induction t with
  | nil => rfl
  | cons a rest ih => exact ih (by simp)

theorem discussAgents_inr (ags : List (String × AgentFun)) :
    ∀ (rnd : Nat) (hist : List HistEntry) (evals : List (String × EvalRec))
      (tr : List TraceEntry) (h2 : List HistEntry) (e2 : List (String × EvalRec))
      (t2 : List TraceEntry),
      discussAgents ags rnd hist evals tr = .ok (.inr (h2, e2, t2)) →
      ∃ ext, t2 = tr ++ ext ∧ ∀ x ∈ ext, x.confidence < 50 := by
  induction ags with
  | nil =>
    intro rnd hist evals tr h2 e2 t2 heq
    simp only [discussAgents, Except.ok.injEq, Sum.inr.injEq, Prod.mk.injEq] at heq
    refine ⟨[], ?_, by simp⟩
    rw [← heq.2.2]
    simp
  | cons p rest ih =>
    intro rnd hist evals tr h2 e2 t2 heq
    obtain ⟨name, f⟩ := p
    cases hf : f hist with
    | error msg =>
      simp only [discussAgents, hf] at heq
      exact absurd heq (by simp)
    | ok v =>
      obtain ⟨conf, reasoning⟩ := v
      simp only [discussAgents, hf] at heq
      by_cases hc : 50 ≤ conf
      · rw [if_pos hc] at heq
        simp at heq
      · rw [if_neg hc] at heq
        obtain ⟨ext, hext, hlt⟩ := ih rnd _ _ _ h2 e2 t2 heq
        refine ⟨⟨name, rnd, conf⟩ :: ext, ?_, ?_⟩
        · rw [hext]; simp
        · intro x hx
          rcases List.mem_cons.mp hx with h1 | hn
          · rw [h1]; show conf < 50; omega
          · exact hlt x hn

theorem discussAgents_inl (ags : List (String × AgentFun)) :
    ∀ (rnd : Nat) (hist : List HistEntry) (evals : List (String × EvalRec))
      (tr : List TraceEntry) (res : DiscussResult),
      discussAgents ags rnd hist evals tr = .ok (.inl res) →
      ∃ ext last, res.trace = tr ++ ext ++ [last] ∧ (∀ x ∈ ext, x.confidence < 50) ∧
        50 ≤ last.confidence ∧ res.winner = some last.agent ∧
        res.confidence = last.confidence := by
  induction ags with
  | nil =>
    intro rnd hist evals tr res heq
    simp only [discussAgents] at heq
    exact absurd heq (by simp)
  | cons p rest ih =>
    intro rnd hist evals tr res heq
    obtain ⟨name, f⟩ := p
    cases hf : f hist with
    | error msg =>
      simp only [discussAgents, hf] at heq
      exact absurd heq (by simp)
    | ok v =>
      obtain ⟨conf, reasoning⟩ := v
      simp only [discussAgents, hf] at heq
      by_cases hc : 50 ≤ conf
      · rw [if_pos hc] at heq
        simp only [Except.ok.injEq, Sum.inl.injEq] at heq
        refine ⟨[], ⟨name, rnd, conf⟩, ?_, by simp, hc, ?_, ?_⟩
        · rw [← heq]; simp
        · rw [← heq]
        · rw [← heq]
      · rw [if_neg hc] at heq
        obtain ⟨ext, last, htr, hlt, hl, hw, hcf⟩ := ih rnd _ _ _ res heq
        refine ⟨⟨name, rnd, conf⟩ :: ext, last, ?_, ?_, hl, hw, hcf⟩
        · rw [htr]; simp
        · intro x hx
          rcases List.mem_cons.mp hx with h1 | hn
          · rw [h1]; show conf < 50; omega
          · exact hlt x hn

theorem discussRounds_main (agents : List (String × AgentFun)) :
    ∀ (k rnd : Nat) (hist : List HistEntry) (evals : List (String × EvalRec))
      (tr : List TraceEntry) (res : DiscussResult),
      discussRounds agents k rnd hist evals tr = .ok res →
      ∃ ext, res.trace = tr ++ ext ∧
        ((∀ x ∈ ext, x.confidence < 50) ∨
         (∃ pre last, ext = pre ++ [last] ∧ (∀ x ∈ pre, x.confidence < 50) ∧
           50 ≤ last.confidence ∧ res.winner = some last.agent ∧
           res.confidence = last.confidence)) := by
  intro k
  induction k with
  | zero =>
    intro rnd hist evals tr res heq
    simp only [discussRounds] at heq
    refine ⟨[], ?_, Or.inl (by simp)⟩
    cases hm : argmaxEvals evals with
    | some p =>
      obtain ⟨n, cf⟩ := p
      rw [hm] at heq
      simp only [Except.ok.injEq] at heq
      rw [← heq]
      simp
    | none =>
      rw [hm] at heq
      simp only [Except.ok.injEq] at heq
      rw [← heq]
      simp
  | succ k ihk =>
    intro rnd hist evals tr res heq
    simp only [discussRounds] at heq
    cases hda : discussAgents agents rnd hist evals tr with
    | error e => rw [hda] at heq; simp at heq
    | ok s =>
      cases s with
      | inl r =>
        rw [hda] at heq
        simp only [Except.ok.injEq] at heq
        subst heq
        obtain ⟨ext, last, htr, hlt, hl, hw, hcf⟩ :=
          discussAgents_inl agents rnd hist evals tr r hda
        refine ⟨ext ++ [last], by rw [htr]; simp, Or.inr ⟨ext, last, rfl, hlt, hl, hw, hcf⟩⟩
      | inr trip =>
        obtain ⟨h2, e2, t2⟩ := trip
        rw [hda] at heq
        obtain ⟨ext2, htr2, hlt2⟩ := discussAgents_inr agents rnd hist evals tr h2 e2 t2 hda
        obtain ⟨ext3, htr3, hcase⟩ := ihk (rnd + 1) h2 e2 t2 res heq
        refine ⟨ext2 ++ ext3, by rw [htr3, htr2]; simp, ?_⟩
        rcases hcase with hall | ⟨pre, last, hpre, hprelt, hl, hw, hcf⟩
        · left
          intro x hx
          rcases List.mem_append.mp hx with hx2 | hx3
          · exact hlt2 x hx2
          · exact hall x hx3
        · right
          refine ⟨ext2 ++ pre, last, by rw [hpre]; simp, ?_, hl, hw, hcf⟩
          intro x hx
          rcases List.mem_append.mp hx with hx2 | hx3
          · exact hlt2 x hx2
          · exact hprelt x hx3

/-- C6.  In every successful run of `facilitate_discussion`, any evaluation
in the invocation trace that reaches the target confidence 50 is the very
last one performed — no specialist later in that round and no later round is
ever evaluated — and that specialist (with that confidence) is the returned
winner. -/
theorem C6_short_circuit (agents : List (String × AgentFun)) (res : DiscussResult)
    (hok : facilitate_discussion agents = .ok res)
    (i : Nat) (hi : i < res.trace.length)
    (hconf : 50 ≤ (res.trace.get ⟨i, hi⟩).confidence) :
    i + 1 = res.trace.length ∧
    res.winner = some ((res.trace.get ⟨i, hi⟩).agent) ∧
    res.confidence = (res.trace.get ⟨i, hi⟩).confidence := by
  obtain ⟨ext, htr, hcase⟩ := discussRounds_main agents 3 1 [] [] [] res hok
  rw [List.nil_append] at htr
  rcases hcase with hall | ⟨pre, last, hpre, hprelt, hl, hw, hcf⟩
  · exfalso
    have hmem : res.trace.get ⟨i, hi⟩ ∈ ext := by
      rw [← htr]
      exact res.trace.get_mem i hi
    have := hall _ hmem
    omega
  · have htr2 : res.trace = pre ++ [last] := by rw [htr, hpre]
    have hlen : res.trace.length = pre.length + 1 := by rw [htr2]; simp
    have hi_eq : i = pre.length := by
      by_contra hne
      have hi_lt : i < pre.length := by omega
      have hmem : res.trace.get ⟨i, hi⟩ ∈ pre := by
        have hcast := List.get_of_eq htr2 ⟨i, hi⟩
        rw [hcast, List.get_append i hi_lt]
        exact pre.get_mem i hi_lt
      have := hprelt _ hmem
      omega
    have hget : res.trace.get ⟨i, hi⟩ = last := by
      have hcast := List.get_of_eq htr2 ⟨i, hi⟩
      rw [hcast]
      subst hi_eq
      exact get_concat_length pre last _
    refine ⟨by omega, ?_, ?_⟩
    · rw [hget]; exact hw
    · rw [hget]; exact hcf

def c6wAgents : List (String × AgentFun) := [("A", fun _ => Except.ok (60, "r"))]

def c6wRes : DiscussResult :=
  ⟨some ("A"), 60, [(("A"), (60, ("r"), 1))], [⟨("A"), 1, 60⟩]⟩

/-- C6 witness: a single agent reaching 60 in round 1 short-circuits at the
first (and only) trace entry. -/
theorem C6_short_circuit_witness :
    0 + 1 = c6wRes.trace.length ∧
    c6wRes.winner = some ((c6wRes.trace.get ⟨0, by decide⟩).agent) ∧
    c6wRes.confidence = (c6wRes.trace.get ⟨0, by decide⟩).confidence :=
  C6_short_circuit c6wAgents c6wRes rfl 0 (by decide) (by decide)

/-! ## The final evaluations mapping holds each agent's most recent round -/

theorem lookup_updateAssoc_self {α : Type} (l : List (String × α)) (name : String) (v : α) :
    lookupAssoc name (updateAssoc l name v) = some v := by
  induction l with
  | nil => simp [updateAssoc, lookupAssoc]
  | cons p rest ih =>
    obtain ⟨k, w⟩ := p
    by_cases h : k = name
    · simp [updateAssoc, lookupAssoc, h]
    · simp [updateAssoc, lookupAssoc, h, ih]

theorem lookup_updateAssoc_ne {α : Type} (l : List (String × α)) (name name' : String) (v : α)
    (h : name' ≠ name) : lookupAssoc name' (updateAssoc l name v) = lookupAssoc name' l := by
  induction l with
  | nil =>
    have h2 : ¬ name = name' := fun hh => h hh.symm
    simp [updateAssoc, lookupAssoc, h2]
  | cons p rest ih =>
    obtain ⟨k, w⟩ := p
    by_cases hk : k = name
    · subst hk
      have h2 : ¬ k = name' := fun hh => h hh.symm
      simp [updateAssoc, lookupAssoc, h2]
    · simp only [updateAssoc, if_neg hk]
      by_cases hk2 : k = name'
      · simp [lookupAssoc, hk2]
      · simp [lookupAssoc, hk2, ih]

/-- The last trace entry recorded for a given specialist. -/
def lastFor (name : String) (tr : List TraceEntry) : Option TraceEntry :=
  (tr.filter (fun e => e.agent == name)).getLast?

/-- The invariant tying `evaluations` to the invocation trace: each entry of
the mapping is the specialist's most recent evaluation. -/
def EvalsTraceConsistent (evals : List (String × EvalRec)) (tr : List TraceEntry) : Prop :=
  ∀ name c rs rd, lookupAssoc name evals = some (c, rs, rd) →
    (lastFor name tr).map (fun e => (e.confidence, e.round)) = some (c, rd)

theorem consistent_step (evals : List (String × EvalRec)) (tr : List TraceEntry)
    (name : String) (conf : Nat) (reasoning : String) (rnd : Nat)
    (h : EvalsTraceConsistent evals tr) :
    EvalsTraceConsistent (updateAssoc evals name (conf, reasoning, rnd))
      (tr ++ [⟨name, rnd, conf⟩]) := by
  intro name' c rs rd hl
  by_cases heq : name' = name
  · subst heq
    rw [lookup_updateAssoc_self] at hl
    injection hl with hl2
    obtain ⟨h1, h2, h3⟩ : conf = c ∧ reasoning = rs ∧ rnd = rd := by simpa using hl2
    subst h1
    subst h3
    unfold lastFor
    rw [List.filter_append]
    have hfe : List.filter (fun e => e.agent == name')
        ([⟨name', rnd, conf⟩] : List TraceEntry) = [⟨name', rnd, conf⟩] := by simp
    rw [hfe, List.getLast?_concat]
    rfl
  · rw [lookup_updateAssoc_ne evals name name' (conf, reasoning, rnd) heq] at hl
    have hres := h name' c rs rd hl
    unfold lastFor at hres ⊢
    rw [List.filter_append]
    have hfe : List.filter (fun e => e.agent == name')
        ([⟨name, rnd, conf⟩] : List TraceEntry) = [] := by
      simp only [List.filter, List.filter_nil]
      have : (TraceEntry.mk name rnd conf).agent == name' → False := by
        intro hb
        exact heq (beq_iff_eq .. |>.mp hb).symm
      cases hbe : (TraceEntry.mk name rnd conf).agent == name' with
      | false => rfl
      | true => exact absurd (this hbe) (fun h => h)
    rw [hfe, List.append_nil]
    exact hres

theorem discussAgents_consistent (ags : List (String × AgentFun)) :
    ∀ (rnd : Nat) (hist : List HistEntry) (evals : List (String × EvalRec))
      (tr : List TraceEntry),
      EvalsTraceConsistent evals tr →
      (∀ h2 e2 t2, discussAgents ags rnd hist evals tr = .ok (.inr (h2, e2, t2)) →
        EvalsTraceConsistent e2 t2) ∧
      (∀ res : DiscussResult, discussAgents ags rnd hist evals tr = .ok (.inl res) →
        EvalsTraceConsistent res.evals res.trace) := by
  induction ags with
  | nil =>
    intro rnd hist evals tr hcons
    constructor
    · intro h2 e2 t2 heq
      simp only [discussAgents, Except.ok.injEq, Sum.inr.injEq, Prod.mk.injEq] at heq
      rw [← heq.2.1, ← heq.2.2]
      exact hcons
    · intro res heq
      simp only [discussAgents] at heq
      exact absurd heq (by simp)
  | cons p rest ih =>
    intro rnd hist evals tr hcons
    obtain ⟨name, f⟩ := p
    cases hf : f hist with
    | error msg =>
      constructor
      · intro h2 e2 t2 heq
        simp only [discussAgents, hf] at heq
        exact absurd heq (by simp)
      · intro res heq
        simp only [discussAgents, hf] at heq
        exact absurd heq (by simp)
    | ok v =>
      obtain ⟨conf, reasoning⟩ := v
      have hstep := consistent_step evals tr name conf reasoning rnd hcons
      by_cases hc : 50 ≤ conf
      · constructor
        · intro h2 e2 t2 heq
          simp only [discussAgents, hf, if_pos hc] at heq
          exact absurd heq (by simp)
        · intro res heq
          simp only [discussAgents, hf, if_pos hc, Except.ok.injEq, Sum.inl.injEq] at heq
          rw [← heq]
          exact hstep
      · constructor
        · intro h2 e2 t2 heq
          simp only [discussAgents, hf, if_neg hc] at heq
          exact (ih rnd _ _ _ hstep).1 h2 e2 t2 heq
        · intro res heq
          simp only [discussAgents, hf, if_neg hc] at heq
          exact (ih rnd _ _ _ hstep).2 res heq

theorem discussRounds_consistent (agents : List (String × AgentFun)) :
    ∀ (k rnd : Nat) (hist : List HistEntry) (evals : List (String × EvalRec))
      (tr : List TraceEntry) (res : DiscussResult),
      EvalsTraceConsistent evals tr →
      discussRounds agents k rnd hist evals tr = .ok res →
      EvalsTraceConsistent res.evals res.trace := by
  intro k
  induction k with
  | zero =>
    intro rnd hist evals tr res hcons heq
    simp only [discussRounds] at heq
    cases hm : argmaxEvals evals with
    | some p =>
      obtain ⟨n, cf⟩ := p
      rw [hm] at heq
      simp only [Except.ok.injEq] at heq
      rw [← heq]
      exact hcons
    | none =>
      rw [hm] at heq
      simp only [Except.ok.injEq] at heq
      rw [← heq]
      exact hcons
  | succ k ihk =>
    intro rnd hist evals tr res hcons heq
    simp only [discussRounds] at heq
    cases hda : discussAgents agents rnd hist evals tr with
    | error e => rw [hda] at heq; simp at heq
    | ok s =>
      cases s with
      | inl r =>
        rw [hda] at heq
        simp only [Except.ok.injEq] at heq
        subst heq
        exact (discussAgents_consistent agents rnd hist evals tr hcons).2 r hda
      | inr trip =>
        obtain ⟨h2, e2, t2⟩ := trip
        rw [hda] at heq
        exact ihk (rnd + 1) h2 e2 t2 res
          ((discussAgents_consistent agents rnd hist evals tr hcons).1 h2 e2 t2 hda) heq

theorem discussAgents_inl_has50 (ags : List (String × AgentFun)) (rnd : Nat)
    (hist : List HistEntry) (evals : List (String × EvalRec)) (tr : List TraceEntry)
    (res : DiscussResult) (heq : discussAgents ags rnd hist evals tr = .ok (.inl res)) :
    ∃ x ∈ res.trace, 50 ≤ x.confidence := by
  obtain ⟨ext, last, htr, -, hl, -, -⟩ := discussAgents_inl ags rnd hist evals tr res heq
  exact ⟨last, by rw [htr]; simp, hl⟩

theorem discussRounds_argmax (agents : List (String × AgentFun)) :
    ∀ (k rnd : Nat) (hist : List HistEntry) (evals : List (String × EvalRec))
      (tr : List TraceEntry) (res : DiscussResult),
      discussRounds agents k rnd hist evals tr = .ok res →
      (∀ x ∈ res.trace, x.confidence < 50) →
      (match argmaxEvals res.evals with
       | some p => res.winner = some p.1 ∧ res.confidence = p.2
       | none => res.winner = none ∧ res.confidence = 0) := by
  intro k
  induction k with
  | zero =>
    intro rnd hist evals tr res heq _
    simp only [discussRounds] at heq
    cases hm : argmaxEvals evals with
    | some p =>
      obtain ⟨n, cf⟩ := p
      rw [hm] at heq
      simp only [Except.ok.injEq] at heq
      rw [← heq]
      simp only [hm]
      trivial
    | none =>
      rw [hm] at heq
      simp only [Except.ok.injEq] at heq
      rw [← heq]
      simp only [hm]
      trivial
  | succ k ihk =>
    intro rnd hist evals tr res heq hlow
    simp only [discussRounds] at heq
    cases hda : discussAgents agents rnd hist evals tr with
    | error e => rw [hda] at heq; simp at heq
    | ok s =>
      cases s with
      | inl r =>
        rw [hda] at heq
        simp only [Except.ok.injEq] at heq
        subst heq
        obtain ⟨x, hx, h50⟩ := discussAgents_inl_has50 agents rnd hist evals tr r hda
        exact absurd (hlow x hx) (by omega)
      | inr trip =>
        obtain ⟨h2, e2, t2⟩ := trip
        rw [hda] at heq
        exact ihk (rnd + 1) h2 e2 t2 res heq hlow

/-- C7 (amended).  When no evaluation in a successful run reaches 50, the
returned soft winner is the first-maximal entry of the final `evaluations`
mapping, and that mapping holds each specialist's most recent (last-round)
confidence — not the highest confidence across all rounds (see the
counterexample). -/
theorem C7_soft_winner (agents : List (String × AgentFun)) (res : DiscussResult)
    (hok : facilitate_discussion agents = .ok res)
    (hlow : ∀ x ∈ res.trace, x.confidence < 50) :
    (match argmaxEvals res.evals with
     | some p => res.winner = some p.1 ∧ res.confidence = p.2
     | none => res.winner = none ∧ res.confidence = 0) ∧
    (∀ name c rs rd, lookupAssoc name res.evals = some (c, rs, rd) →
      (lastFor name res.trace).map (fun e => (e.confidence, e.round)) = some (c, rd)) :=
  ⟨discussRounds_argmax agents 3 1 [] [] [] res hok hlow,
   discussRounds_consistent agents 3 1 [] [] [] res
     (fun name c rs rd hl => by simp [lookupAssoc] at hl) hok⟩

def c7wAgents : List (String × AgentFun) := [("A", fun _ => Except.ok (10, "r"))]

def c7wRes : DiscussResult :=
  ⟨some ("A"), 10, [(("A"), (10, ("r"), 3))],
   [⟨("A"), 1, 10⟩, ⟨("A"), 2, 10⟩, ⟨("A"), 3, 10⟩]⟩

/-- C7 witness: one agent stuck at 10 over three rounds; the soft winner is
its last-round entry. -/
theorem C7_soft_winner_witness :
    (c7wRes.winner = some ("A") ∧ c7wRes.confidence = 10) ∧
    (lastFor ("A") c7wRes.trace).map (fun e => (e.confidence, e.round)) = some (10, 3) := by
  have h := C7_soft_winner c7wAgents c7wRes rfl (by decide)
  exact ⟨h.1, h.2 ("A") 10 ("r") 3 rfl⟩

def c7CexAgents : List (String × AgentFun) :=
  [("A", fun h => Except.ok (if h.isEmpty then 40 else 10, "r")),
   ("B", fun _ => Except.ok (30, "r"))]

def maxTraceConf (tr : List TraceEntry) : Nat :=
  (tr.map (fun e => e.confidence)).foldl max 0

/-- C7 counterexample.  Agent `A` states 40 in round 1 and 10 afterwards,
`B` always 30: the overall highest confidence across all rounds is `A`'s 40,
but because `evaluations[agent]` is overwritten every round the coordinator
returns `B` with 30 — refuting "the specialist whose confidence was the
overall highest across all rounds". -/
theorem C7_counterexample :
    (facilitate_discussion c7CexAgents).toOption.map (fun r => (r.winner, r.confidence)) =
      some (some ("B"), 30) ∧
    (facilitate_discussion c7CexAgents).toOption.map (fun r => maxTraceConf r.trace) =
      some 40 ∧
    ¬(30 = (40 : Nat)) :=
  ⟨rfl, rfl, by decide⟩

/-! ## C8: exception handling in negotiation -/

def TotalAgent (f : AgentFun) : Prop :=
  ∀ h, ∃ v, f h = Except.ok v

theorem discussAgents_total (ags : List (String × AgentFun))
    (htot : ∀ p ∈ ags, TotalAgent p.2) :
    ∀ (rnd : Nat) (hist : List HistEntry) (evals : List (String × EvalRec))
      (tr : List TraceEntry), ∃ out, discussAgents ags rnd hist evals tr = .ok out := by
  induction ags with
  | nil => intro rnd hist evals tr; exact ⟨.inr (hist, evals, tr), rfl⟩
  | cons p rest ih =>
    intro rnd hist evals tr
    obtain ⟨name, f⟩ := p
    obtain ⟨v, hv⟩ := htot (name, f) (List.mem_cons_self _ _) hist
    obtain ⟨conf, reasoning⟩ := v
    have hv2 : f hist = Except.ok (conf, reasoning) := hv
    by_cases hc : 50 ≤ conf
    · refine ⟨.inl ⟨some name, conf, updateAssoc evals name (conf, reasoning, rnd),
        tr ++ [⟨name, rnd, conf⟩]⟩, ?_⟩
      simp only [discussAgents, hv2, if_pos hc]
    · obtain ⟨out, hout⟩ := ih (fun q hq => htot q (List.mem_cons_of_mem _ hq)) rnd
        (hist ++ [⟨name, conf, reasoning⟩]) (updateAssoc evals name (conf, reasoning, rnd))
        (tr ++ [⟨name, rnd, conf⟩])
      refine ⟨out, ?_⟩
      simp only [discussAgents, hv2, if_neg hc]
      exact hout

theorem discussRounds_total (agents : List (String × AgentFun))
    (htot : ∀ p ∈ agents, TotalAgent p.2) :
    ∀ (k rnd : Nat) (hist : List HistEntry) (evals : List (String × EvalRec))
      (tr : List TraceEntry), ∃ res, discussRounds agents k rnd hist evals tr = .ok res := by
  intro k
  induction k with
  | zero =>
    intro rnd hist evals tr
    cases hm : argmaxEvals evals with
    | some p =>
      obtain ⟨n, cf⟩ := p
      exact ⟨⟨some n, cf, evals, tr⟩, by simp only [discussRounds, hm]⟩
    | none => exact ⟨⟨none, 0, evals, tr⟩, by simp only [discussRounds, hm]⟩
  | succ k ihk =>
    intro rnd hist evals tr
    obtain ⟨out, hout⟩ := discussAgents_total agents htot rnd hist evals tr
    cases out with
    | inl r => exact ⟨r, by simp only [discussRounds, hout]⟩
    | inr trip =>
      obtain ⟨h2, e2, t2⟩ := trip
      obtain ⟨res, hres⟩ := ihk (rnd + 1) h2 e2 t2
      exact ⟨res, by simp only [discussRounds, hout]; exact hres⟩

/-- C8 (amended).  An exception raised inside the DSPy evaluator is caught
by `evaluate_with_discussion` and converted to adjustment 0 with the
reasoning string "Error in collaborative evaluation" (so the specialist
keeps its base confidence rather than 0); an agent wrapped this way never
raises, and as long as every agent's evaluation call itself returns
normally, `facilitate_discussion` completes.  (An exception escaping the
evaluation call itself aborts the whole discussion — see the
counterexample.) -/
theorem C8_error_conversion (name task emsg : String) (rest : List (String × AgentFun))
    (hrest : ∀ p ∈ rest, TotalAgent p.2) :
    (∀ hist, evaluate_with_discussion (fun _ => Except.error emsg) hist =
      (0, "Error in collaborative evaluation")) ∧
    ∃ res, facilitate_discussion
      ((name, fun h => Except.ok
        (collaborative_evaluate name task true (fun _ => Except.error emsg) h)) :: rest) =
      Except.ok res := by
  constructor
  · intro hist; rfl
  · apply discussRounds_total
    intro p hp
    rcases List.mem_cons.mp hp with h1 | h2
    · rw [h1]
      exact fun h => ⟨_, rfl⟩
    · exact hrest p h2

/-- C8 witness: the conversion equation at the empty history, for a
concrete failing negotiator alongside one healthy agent. -/
theorem C8_error_conversion_witness :
    evaluate_with_discussion (fun _ => Except.error ("x")) [] =
      (0, "Error in collaborative evaluation") :=
  (C8_error_conversion ("Grok") ("check the weather") ("x")
    [(("B"), fun _ => Except.ok (30, ("r")))]
    (by
      intro p hp
      rw [List.mem_singleton] at hp
      rw [hp]
      exact fun h => ⟨(30, ("r")), rfl⟩)).1 []

def c8CexAgents : List (String × AgentFun) :=
  [("A", fun _ => Except.error ("boom")), ("B", fun _ => Except.ok (30, "r"))]

/-- C8 counterexample.  `facilitate_discussion` wraps no try/except around
the evaluation call: when agent `A`'s call raises, the exception propagates
and the whole discussion aborts — agent `B` is never evaluated — refuting
"the round is not aborted ... every remaining specialist in that round is
still evaluated". -/
theorem C8_counterexample :
    facilitate_discussion c8CexAgents = Except.error ("boom") :=
  rfl
